import Mathlib

/-
  Verification development for the KKBK real-time voice agent.

  Each section embeds one part of the JavaScript source as executable Lean
  definitions and proves (or refutes) the corresponding specification claim.
  Strings are modelled as lists of characters, byte buffers as lists, and
  JavaScript numbers as Nat or Int with the exact float comparisons noted
  where they matter.
-/

namespace KKBK

/-! ## Audio codec: chunkPCM (src/unnamed/part_005, lines 796-802)

  JS source:
    chunkPCM(pcmBuffer, chunkSize = 640) {
      const chunks = [];
      for (let i = 0; i < pcmBuffer.length; i += chunkSize) {
        chunks.push(pcmBuffer.slice(i, Math.min(i + chunkSize, pcmBuffer.length)));
      }
      return chunks;
    }

  Each loop iteration takes the slice [i, min(i+chunkSize, len)), which for
  i walking in steps of chunkSize is exactly take/drop below.  The source
  loop never terminates for chunkSize = 0; the model returns [] there and
  every theorem about it assumes a positive chunk size. -/

def chunkPCM (pcm : List α) (chunkSize : Nat) : List (List α) :=
  if _h : chunkSize = 0 then []
  else if hl : pcm.isEmpty then []
  else pcm.take chunkSize :: chunkPCM (pcm.drop chunkSize) chunkSize
termination_by pcm.length
decreasing_by
  simp only [List.length_drop]
  have h1 : 0 < pcm.length := by
    cases pcm with
    | nil => simp at hl
    | cons a l => simp
  omega

theorem chunkPCM_nil (s : Nat) : chunkPCM ([] : List α) s = [] := by
  unfold chunkPCM; simp

theorem chunkPCM_cons (pcm : List α) (s : Nat) (hs : s ≠ 0) (hp : pcm ≠ []) :
    chunkPCM pcm s = pcm.take s :: chunkPCM (pcm.drop s) s := by
  rw [chunkPCM]
  simp [hs, hp]

theorem chunkPCM_join (pcm : List α) (s : Nat) :
    s ≠ 0 → (chunkPCM pcm s).flatten = pcm := by
  induction pcm, s using chunkPCM.induct with
  | case1 pcm =>
    intro hs
    exact absurd rfl hs
  | case2 pcm s h hl =>
    intro _
    cases pcm with
    | nil => simp [chunkPCM_nil]
    | cons a l => simp at hl
  | case3 pcm s h hl ih =>
    intro hs
    have hp : pcm ≠ [] := by
      intro he; rw [he] at hl; simp at hl
    rw [chunkPCM_cons _ _ h hp, List.flatten_cons, ih hs, List.take_append_drop]

theorem chunkPCM_size_le (pcm : List α) (s : Nat) :
    ∀ c ∈ chunkPCM pcm s, c.length ≤ s := by
  induction pcm, s using chunkPCM.induct with
  | case1 pcm =>
    intro c hc
    rw [chunkPCM] at hc
    simp at hc
  | case2 pcm s h hl =>
    intro c hc
    rw [chunkPCM] at hc
    simp [h, hl] at hc
  | case3 pcm s h hl ih =>
    have hp : pcm ≠ [] := by
      intro he; rw [he] at hl; simp at hl
    rw [chunkPCM_cons _ _ h hp]
    intro c hc
    rcases List.mem_cons.mp hc with h1 | h2
    · subst h1; simpa using List.length_take_le _ _
    · exact ih c h2

theorem chunkPCM_full_before_last (pcm : List α) (s : Nat) :
    s ≠ 0 → ∀ i, i + 1 < (chunkPCM pcm s).length →
      ∀ c, (chunkPCM pcm s)[i]? = some c → c.length = s := by
  induction pcm, s using chunkPCM.induct with
  | case1 pcm =>
    intro hs
    exact absurd rfl hs
  | case2 pcm s h hl =>
    intro _ i hi
    rw [chunkPCM] at hi
    simp [h, hl] at hi
  | case3 pcm s h hl ih =>
    intro hs i hi c hc
    have hp : pcm ≠ [] := by
      intro he; rw [he] at hl; simp at hl
    rw [chunkPCM_cons _ _ h hp] at hi hc
    simp only [List.length_cons] at hi
    match i with
    | 0 =>
      simp only [List.getElem?_cons_zero, Option.some.injEq] at hc
      subst hc
      have hrest : chunkPCM (List.drop s pcm) s ≠ [] := by
        intro hemp
        rw [hemp] at hi; simp at hi
      have hdrop : List.drop s pcm ≠ [] := by
        intro hd
        rw [hd, chunkPCM_nil] at hrest; exact hrest rfl
      have hlen : s < pcm.length := by
        by_contra hge
        exact hdrop (List.drop_eq_nil_iff_le.mpr (by omega))
      simp [List.length_take]
      omega
    | Nat.succ j =>
      simp only [List.getElem?_cons_succ] at hc
      exact ih hs j (by omega) c hc

/-- Claim C9: for every PCM buffer and chunk size s a positive multiple of
320, chunkPCM frames concatenate back to the input, every frame is at most
s bytes, and every frame except possibly the last is a multiple of 320
bytes (indeed exactly s bytes). -/
theorem c9_chunkPCM_spec (pcm : List α) (s m : Nat) (hm : 0 < m)
    (hs : s = 320 * m) :
    (chunkPCM pcm s).flatten = pcm ∧
    (∀ c ∈ chunkPCM pcm s, c.length ≤ s) ∧
    (∀ i (hi : i + 1 < (chunkPCM pcm s).length),
      320 ∣ ((chunkPCM pcm s).get ⟨i, by omega⟩).length) := by
  have hs0 : s ≠ 0 := by omega
  refine ⟨chunkPCM_join pcm s hs0, chunkPCM_size_le pcm s, ?_⟩
  intro i hi
  have hlt : i < (chunkPCM pcm s).length := by omega
  have hq : (chunkPCM pcm s)[i]? = some ((chunkPCM pcm s).get ⟨i, hlt⟩) := by
    rw [List.getElem?_eq_getElem hlt]
    simp [List.get_eq_getElem]
  rw [chunkPCM_full_before_last pcm s hs0 i hi _ hq, hs]
  exact Dvd.intro m rfl

/-- Witness for C9 at a concrete buffer of 5 numbers with s = 320. -/
theorem c9_chunkPCM_spec_w :
    (chunkPCM (List.range 5) 320).flatten = List.range 5 ∧
    (∀ c ∈ chunkPCM (List.range 5) 320, c.length ≤ 320) ∧
    (∀ i (hi : i + 1 < (chunkPCM (List.range 5) 320).length),
      320 ∣ ((chunkPCM (List.range 5) 320).get ⟨i, by omega⟩).length) :=
  c9_chunkPCM_spec (List.range 5) 320 1 (by decide) rfl

/-! ## Turn pipeline entry and silence gate (src/server.js, lines 357-402)

  processUserAudio first returns when the chunk array is empty, then when
  pendingClear is set (dropping the buffer), then concatenates the chunks,
  counts 16-bit samples with |sample| > 100 and computes
  silenceRatio = 1 - nonZeroSamples/sampleCount; when silenceRatio > 0.95
  it returns before calling sttService.transcribePCM.

  The buffer is modelled as the list of decoded chunk sample lists
  (readInt16LE values).  The float comparison silenceRatio > 0.95 is
  modelled exactly over the integers as 20*(n - nonSilent) > 19*n, which
  agrees with the doubles at every input relevant here (for an all-zero
  buffer the ratio is exactly 1.0); for n = 0 the JS value is NaN and the
  comparison is false, which the model keeps. -/

inductive GateResult
  | emptyBuf
  | barge
  | silenceSkip
  | sttCall (samples : List Int)
deriving DecidableEq

def countNonSilent (samples : List Int) : Nat :=
  (samples.filter (fun s => 100 < s.natAbs)).length

def processUserAudioGate (buf : List (List Int)) (pendingClear : Bool) : GateResult :=
  if buf.isEmpty then GateResult.emptyBuf
  else if pendingClear then GateResult.barge
  else if buf.flatten.length ≠ 0 ∧
      19 * buf.flatten.length <
        20 * (buf.flatten.length - countNonSilent buf.flatten) then
    GateResult.silenceSkip
  else GateResult.sttCall buf.flatten

/-- Claim C10: an inbound buffer consisting entirely of zero-valued 16-bit
samples never reaches the STT call: the turn is skipped (by the empty-buffer
return, the barge-in return, or the silence gate) before
sttService.transcribePCM is invoked. -/
theorem c10_silence_gate (buf : List (List Int)) (pendingClear : Bool)
    (hz : ∀ s ∈ buf.flatten, s = 0) (hne : buf.flatten ≠ []) :
    ∀ samples, processUserAudioGate buf pendingClear ≠ GateResult.sttCall samples := by
  intro samples
  have hcount : countNonSilent buf.flatten = 0 := by
    unfold countNonSilent
    rw [List.length_eq_zero, List.filter_eq_nil_iff]
    intro a ha
    rw [hz a ha]
    decide
  have hn : buf.flatten.length ≠ 0 := by
    intro h0
    exact hne (List.length_eq_zero.mp h0)
  have hcond : buf.flatten.length ≠ 0 ∧
      19 * buf.flatten.length <
        20 * (buf.flatten.length - countNonSilent buf.flatten) := by
    refine ⟨hn, ?_⟩
    rw [hcount]
    omega
  unfold processUserAudioGate
  by_cases hb : buf.isEmpty
  · rw [if_pos hb]
    simp
  · rw [if_neg hb]
    by_cases hc : pendingClear
    · rw [if_pos hc]
      simp
    · rw [if_neg hc, if_pos hcond]
      simp

/-- Witness for C10: three zero samples in one chunk skip the turn. -/
theorem c10_silence_gate_w :
    ([[(0 : Int), 0, 0]].flatten ≠ []) ∧
    processUserAudioGate [[(0 : Int), 0, 0]] false ≠ GateResult.sttCall [0, 0, 0] :=
  ⟨by decide, c10_silence_gate [[(0 : Int), 0, 0]] false (by decide) (by decide) [0, 0, 0]⟩

/-! ## Conversation history across a turn
    (src/unnamed/part_005: ensureSystemMessage lines 107-151,
     generateWithGeminiStreaming lines 324-539;
     src/server.js: processUserAudio lines 400-535)

  ensureSystemMessage inserts or refreshes the persona system entry: if the
  history is empty it becomes the single system entry; otherwise the first
  system entry whose content does not contain the substring
  "Relevant context" has its content overwritten (JS findIndex + content
  assignment, modelled as replace-first), and if no such entry exists one is
  unshifted to the front.  On a successful reply
  generateWithGeminiStreaming pushes one assistant entry whose content is
  this.postProcessReply(replyText).  postProcessReply maps text to text and
  never touches roles, so it is carried as an opaque parameter here; nothing
  in processUserAudio or the AI service ever pushes a user-role entry. -/

inductive Role
  | sys
  | user
  | assistant
deriving DecidableEq

structure ChatMsg where
  role : Role
  content : List Char
deriving DecidableEq

def hasSubAt (text pat : List Char) (i : Nat) : Bool :=
  (text.drop i).take pat.length == pat

def containsSub (text pat : List Char) : Bool :=
  (List.range (text.length + 1)).any (hasSubAt text pat)

def relevantCtxMarker : List Char := "Relevant context".data

def isPersonaSystemMsg (m : ChatMsg) : Bool :=
  m.role == Role.sys && !(containsSub m.content relevantCtxMarker)

def replaceFirstPersonaMsg (persona : List Char) : List ChatMsg → List ChatMsg
  | [] => []
  | m :: rest =>
    if isPersonaSystemMsg m then ChatMsg.mk Role.sys persona :: rest
    else m :: replaceFirstPersonaMsg persona rest

def ensureSystemMessage (hist : List ChatMsg) (persona : List Char) : List ChatMsg :=
  if hist.isEmpty then [ChatMsg.mk Role.sys persona]
  else if hist.any isPersonaSystemMsg then replaceFirstPersonaMsg persona hist
  else ChatMsg.mk Role.sys persona :: hist

def generateStreamingHistory (post : List Char → List Char)
    (hist : List ChatMsg) (persona reply : List Char) : List ChatMsg :=
  ensureSystemMessage hist persona ++ [ChatMsg.mk Role.assistant (post reply)]

def userEntries (hist : List ChatMsg) : List ChatMsg :=
  hist.filter (fun m => m.role == Role.user)

theorem replaceFirstPersonaMsg_userEntries (persona : List Char)
    (l : List ChatMsg) :
    userEntries (replaceFirstPersonaMsg persona l) = userEntries l := by
  induction l with
  | nil => rfl
  | cons m rest ih =>
    unfold replaceFirstPersonaMsg
    by_cases hm : isPersonaSystemMsg m
    · have hrole : m.role = Role.sys := by
        unfold isPersonaSystemMsg at hm
        simp only [Bool.and_eq_true, beq_iff_eq] at hm
        exact hm.1
      rw [if_pos hm]
      unfold userEntries
      rw [List.filter_cons, List.filter_cons]
      have h1 : ((ChatMsg.mk Role.sys persona).role == Role.user) = false := rfl
      have h2 : (m.role == Role.user) = false := by
        rw [hrole]
        decide
      rw [h1, h2]
      simp
    · rw [if_neg hm]
      unfold userEntries at ih ⊢
      rw [List.filter_cons, List.filter_cons, ih]

/-- Claim C4 (refuted): across a turn, generateWithGeminiStreaming (the only
code that touches conversation history) adds no user-role entry whatsoever:
the user entries after the turn equal the user entries before it, for every
prior history, persona, reply and post-processing function.  The transcribed
text is therefore never appended to history. -/
theorem c4_no_user_entry_added (post : List Char → List Char)
    (hist : List ChatMsg) (persona reply : List Char) :
    userEntries (generateStreamingHistory post hist persona reply)
      = userEntries hist := by
  unfold generateStreamingHistory
  have happ : userEntries (ensureSystemMessage hist persona ++
      [ChatMsg.mk Role.assistant (post reply)]) =
      userEntries (ensureSystemMessage hist persona) ++
        userEntries [ChatMsg.mk Role.assistant (post reply)] := by
    unfold userEntries
    simp only [List.filter_append]
  rw [happ]
  have h2 : userEntries [ChatMsg.mk Role.assistant (post reply)] = [] := rfl
  rw [h2, List.append_nil]
  unfold ensureSystemMessage
  by_cases he : hist.isEmpty
  · rw [if_pos he]
    have : hist = [] := by
      cases hist with
      | nil => rfl
      | cons a l => simp at he
    subst this
    rfl
  · rw [if_neg he]
    by_cases ha : hist.any isPersonaSystemMsg
    · rw [if_pos ha]
      exact replaceFirstPersonaMsg_userEntries persona hist
    · rw [if_neg ha]
      unfold userEntries
      rw [List.filter_cons]
      have hf : ((ChatMsg.mk Role.sys persona).role == Role.user) = false := rfl
      rw [hf]
      simp

/-! ## Inbound media events (src/server.js, handleMediaEvent lines 751-824)

  handleMediaEvent returns early when media.payload is missing or empty,
  optionally pins stream_sid (and, when the session is active and the
  greeting is pending, starts the greeting), discards frames whose
  media.track is "outbound", and otherwise pushes the base64-decoded
  payload onto session.audioBuffer.  It never consults session.isActive
  before pushing.  The decoded payload bytes are carried directly. -/

structure MediaSession where
  streamSid : Option (List Char)
  sampleRate : Nat
  audioBuf : List (List Nat)
  isActiveFlag : Bool
  greetingSent : Bool
  greetingInProgress : Bool
deriving DecidableEq

structure MediaEvent where
  msid : Option (List Char)
  track : Option (List Char)
  payload : Option (List Nat)
deriving DecidableEq

def handleMediaEvent (s : MediaSession) (m : MediaEvent) : MediaSession :=
  match m.payload with
  | none => s
  | some bytes =>
    let s1 :=
      if s.streamSid.isNone && m.msid.isSome then
        let s' := { s with streamSid := m.msid }
        if !s'.greetingSent && !s'.greetingInProgress && s'.isActiveFlag then
          { s' with greetingSent := true, greetingInProgress := true }
        else s'
      else s
    if m.track == some "outbound".data then s1
    else { s1 with audioBuf := s1.audioBuf ++ [bytes] }

def c7Session : MediaSession :=
  { streamSid := none, sampleRate := 16000, audioBuf := [],
    isActiveFlag := false, greetingSent := false, greetingInProgress := false }

def c7Event : MediaEvent :=
  { msid := some "sid1".data, track := some "inbound".data, payload := some [0, 0] }

/-- Counterexample to claim C7: a freshly created session (is_active =
false, as before the connected or start event) still gets the inbound
payload appended to its audio buffer by handleMediaEvent. -/
theorem c7_counterexample :
    c7Session.isActiveFlag = false ∧
    (handleMediaEvent c7Session c7Event).audioBuf ≠ c7Session.audioBuf := by
  decide

/-- Claim C7 as amended: processing an inbound media event whose payload is
present and whose track is not "outbound" appends the decoded payload to the
inbound audio buffer even when is_active is false; the flag does not gate
inbound audio. -/
theorem c7_amended (s : MediaSession) (m : MediaEvent) (bytes : List Nat)
    (hA : s.isActiveFlag = false)
    (hp : m.payload = some bytes)
    (ht : ¬ m.track = some "outbound".data) :
    (handleMediaEvent s m).audioBuf = s.audioBuf ++ [bytes] := by
  unfold handleMediaEvent
  rw [hp]
  simp only []
  have htb : (m.track == some "outbound".data) = false := by
    rw [beq_eq_false_iff_ne]
    exact ht
  by_cases hcap : s.streamSid.isNone && m.msid.isSome
  · simp only [hcap, if_true, htb, Bool.false_eq_true, if_false]
    by_cases hg : !s.greetingSent && !s.greetingInProgress && s.isActiveFlag
    · rw [hA] at hg
      simp at hg
    · simp only [hg, Bool.false_eq_true, if_false]
  · simp only [hcap, Bool.false_eq_true, if_false, htb]

/-- Witness for the amended C7 at the concrete fresh session. -/
theorem c7_amended_w :
    (handleMediaEvent c7Session c7Event).audioBuf = c7Session.audioBuf ++ [[0, 0]] :=
  c7_amended c7Session c7Event [0, 0] rfl rfl (by decide)

/-! ## Outbound call endpoint (src/server.js, app.post /call, lines 42-102)

  The handler reads five required Exotel configuration values from the
  environment (the subdomain has a default and is not required); when any
  is falsy it returns HTTP 400 with a fixed `required` array holding all
  five key names.  Otherwise a target number not starting with "+"
  (after defaulting a missing/empty `to`) yields an HTTP 400 invalid-number
  error; otherwise the call proceeds to ExotelVoicebotCaller.makeCall. -/

structure ExotelEnv where
  apiKey : Option (List Char)
  apiToken : Option (List Char)
  sid : Option (List Char)
  appId : Option (List Char)
  callerId : Option (List Char)
deriving DecidableEq

def falsyStr : Option (List Char) → Bool
  | none => true
  | some s => s.isEmpty

def requiredKeys : List (List Char) :=
  ["EXOTEL_API_KEY".data, "EXOTEL_API_TOKEN".data, "EXOTEL_SID".data,
   "EXOTEL_APP_ID".data, "EXOTEL_CALLER_ID".data]

def missingKeys (e : ExotelEnv) : List (List Char) :=
  (if falsyStr e.apiKey then ["EXOTEL_API_KEY".data] else []) ++
  (if falsyStr e.apiToken then ["EXOTEL_API_TOKEN".data] else []) ++
  (if falsyStr e.sid then ["EXOTEL_SID".data] else []) ++
  (if falsyStr e.appId then ["EXOTEL_APP_ID".data] else []) ++
  (if falsyStr e.callerId then ["EXOTEL_CALLER_ID".data] else [])

inductive CallResponse
  | missingConfig (required : List (List Char))
  | invalidNumber
  | callAttempt (target : List Char)
deriving DecidableEq

def defaultTarget : List Char := "+919324606985".data

def postCall (env : ExotelEnv) (toParam : Option (List Char)) : CallResponse :=
  let target := match toParam with
    | none => defaultTarget
    | some t => if t.isEmpty then defaultTarget else t
  if falsyStr env.apiKey || falsyStr env.apiToken || falsyStr env.sid ||
     falsyStr env.appId || falsyStr env.callerId then
    CallResponse.missingConfig requiredKeys
  else if target.isEmpty || !(target.take 1 == ['+']) then
    CallResponse.invalidNumber
  else CallResponse.callAttempt target

def c8EnvMissing : ExotelEnv :=
  { apiKey := some "k".data, apiToken := some "t".data, sid := some "s".data,
    appId := some "a".data, callerId := none }

def c8EnvFull : ExotelEnv :=
  { apiKey := some "k".data, apiToken := some "t".data, sid := some "s".data,
    appId := some "a".data, callerId := some "c".data }

/-- Counterexample to claim C8: with only EXOTEL_CALLER_ID missing the
endpoint returns an error payload enumerating all five required keys, not
exactly the missing one. -/
theorem c8_counterexample :
    missingKeys c8EnvMissing = ["EXOTEL_CALLER_ID".data] ∧
    postCall c8EnvMissing (some "+911".data) = CallResponse.missingConfig requiredKeys ∧
    requiredKeys ≠ ["EXOTEL_CALLER_ID".data] := by
  decide

theorem missingKeys_or (e : ExotelEnv) :
    (falsyStr e.apiKey || falsyStr e.apiToken || falsyStr e.sid ||
      falsyStr e.appId || falsyStr e.callerId) = !(missingKeys e).isEmpty := by
  cases h1 : falsyStr e.apiKey <;> cases h2 : falsyStr e.apiToken <;>
    cases h3 : falsyStr e.sid <;> cases h4 : falsyStr e.appId <;>
    cases h5 : falsyStr e.callerId <;>
    simp [missingKeys, h1, h2, h3, h4, h5]

/-- Claim C8 as amended: when some required configuration key is absent the
endpoint returns the 400 missing-configuration payload, whose `required`
array is the full fixed list of the five keys (regardless of which are
missing); when the configuration is complete, a non-empty target number not
starting with "+" is rejected with the 400 invalid-number error. -/
theorem c8_amended (env : ExotelEnv) (t : List Char) (ht : ¬ t.isEmpty) :
    (missingKeys env ≠ [] → postCall env (some t) = CallResponse.missingConfig requiredKeys) ∧
    (missingKeys env = [] → ¬ t.take 1 = ['+'] →
      postCall env (some t) = CallResponse.invalidNumber) := by
  constructor
  · intro hm
    unfold postCall
    rw [missingKeys_or]
    have : (missingKeys env).isEmpty = false := by
      cases hq : missingKeys env with
      | nil => exact absurd hq hm
      | cons a l => simp [hq]
    rw [this]
    simp
  · intro hm hplus
    unfold postCall
    rw [missingKeys_or, hm]
    have hte : t.isEmpty = false := by
      cases hq : t.isEmpty
      · rfl
      · exact absurd hq ht
    simp only [List.isEmpty_nil, Bool.not_true, Bool.false_eq_true, if_false, hte]
    have : (t.take 1 == ['+']) = false := by
      rw [beq_eq_false_iff_ne]
      exact hplus
    simp [this]

/-- Witness for the amended C8 at one incomplete and one complete
environment. -/
theorem c8_amended_w :
    postCall c8EnvMissing (some "+911".data) = CallResponse.missingConfig requiredKeys ∧
    postCall c8EnvFull (some "0911".data) = CallResponse.invalidNumber :=
  ⟨(c8_amended c8EnvMissing "+911".data (by decide)).1 (by decide),
   (c8_amended c8EnvFull "0911".data (by decide)).2 (by decide) (by decide)⟩

/-! ## Knowledge base retrieval (src/unnamed/part_006, getRelevantChunks
    lines 220-289)

  getRelevantChunks lowercases and trims the query, splits it on whitespace
  keeping tokens of length >= 2, and scores every chunk:
  sum over tokens of the number of non-overlapping word-boundary regex
  matches in the lowercased chunk, plus 5 when the whole lowercased query
  appears as a substring, plus 1 when the chunk matches /^#+\s|:$/.
  Chunks are sorted by score descending with ties broken by ascending
  index, filtered to score > 0 and cut to maxChunks.

  Modelling notes: JS toLowerCase, \s, \w and trim are modelled over their
  ASCII meaning, which covers all inputs used here; the word regex
  \b<token>\b is modelled by hand (a boundary holds where word-char-ness
  changes, matches are counted left to right without overlap, exactly the
  behaviour of String.match with a global regex for tokens free of regex
  metacharacters).  Array.prototype.sort with the comparator
  (a, b) => b.score - a.score, ties a.idx - b.idx, is a total order on the
  scored entries (indices are distinct), so its unique sorted result is the
  insertion sort below. -/

def isWordChar (c : Char) : Bool := c.isAlphanum || c == '_'

def isJsSpace (c : Char) : Bool :=
  c == ' ' || c == '\t' || c == '\n' || c == '\r' || c == '\x0b' || c == '\x0c'

def toLowerList (l : List Char) : List Char := l.map Char.toLower

def jsTrim (l : List Char) : List Char :=
  (((l.dropWhile isJsSpace).reverse).dropWhile isJsSpace).reverse

def splitWsAux : List Char → List Char → List (List Char)
  | [], acc => if acc.isEmpty then [] else [acc.reverse]
  | c :: rest, acc =>
    if isJsSpace c then
      if acc.isEmpty then splitWsAux rest []
      else acc.reverse :: splitWsAux rest []
    else splitWsAux rest (c :: acc)

def splitWs (l : List Char) : List (List Char) := splitWsAux l []

def wordCharAtOpt (text : List Char) (i : Nat) : Bool :=
  match text[i]? with
  | some c => isWordChar c
  | none => false

def boundaryAt (text : List Char) (p : Nat) : Bool :=
  (match p with
   | 0 => false
   | q + 1 => wordCharAtOpt text q) != wordCharAtOpt text p

def countWordMatchesAux (text pat : List Char) : Nat → Nat → Nat
  | 0, _ => 0
  | fuel + 1, i =>
    if i + pat.length ≤ text.length then
      if hasSubAt text pat i && boundaryAt text i && boundaryAt text (i + pat.length) then
        1 + countWordMatchesAux text pat fuel (i + pat.length)
      else countWordMatchesAux text pat fuel (i + 1)
    else 0

def countWordMatches (text pat : List Char) : Nat :=
  if pat.isEmpty then 0 else countWordMatchesAux text pat (text.length + 1) 0

def headingLike (chunk : List Char) : Bool :=
  (match chunk with
   | '#' :: rest =>
     match rest.dropWhile (fun c => c == '#') with
     | c :: _ => isJsSpace c
     | [] => false
   | _ => false) ||
  (chunk.getLast? == some ':')

def queryLower (query : List Char) : List Char := jsTrim (toLowerList query)

def queryTokens (query : List Char) : List (List Char) :=
  (splitWs (queryLower query)).filter (fun w => 2 ≤ w.length)

def tokenScore (query chunk : List Char) : Nat :=
  ((queryTokens query).map (fun w => countWordMatches (toLowerList chunk) w)).sum

def headingBonus (chunk : List Char) : Nat := if headingLike chunk then 1 else 0

def baseScore (query chunk : List Char) : Nat :=
  tokenScore query chunk + headingBonus chunk

def phraseBonus (query chunk : List Char) : Nat :=
  if containsSub (toLowerList chunk) (queryLower query) then 5 else 0

def chunkScore (query chunk : List Char) : Nat :=
  tokenScore query chunk + phraseBonus query chunk + headingBonus chunk

structure ScoredChunk where
  chunk : List Char
  score : Nat
  idx : Nat
deriving DecidableEq

def chunkBefore (a b : ScoredChunk) : Prop :=
  b.score < a.score ∨ (a.score = b.score ∧ a.idx ≤ b.idx)

instance : DecidableRel chunkBefore := fun a b => by
  unfold chunkBefore
  infer_instance

instance : IsTotal ScoredChunk chunkBefore :=
  ⟨fun a b => by
    unfold chunkBefore
    omega⟩

instance : IsTrans ScoredChunk chunkBefore :=
  ⟨fun a b c hab hbc => by
    unfold chunkBefore at hab hbc ⊢
    omega⟩

def scoreAll (query : List Char) : Nat → List (List Char) → List ScoredChunk
  | _, [] => []
  | i, c :: rest => ScoredChunk.mk c (chunkScore query c) i :: scoreAll query (i + 1) rest

def scoredOf (chunks : List (List Char)) (query : List Char) : List ScoredChunk :=
  scoreAll query 0 chunks

def rankedChunks (chunks : List (List Char)) (query : List Char) : List ScoredChunk :=
  List.insertionSort chunkBefore (scoredOf chunks query)

def getRelevantChunksM (chunks : List (List Char)) (query : List Char)
    (maxChunks : Nat) : List (List Char) :=
  if (jsTrim query).isEmpty then []
  else if (queryTokens query).isEmpty then []
  else
    (((rankedChunks chunks query).filter (fun sc => 0 < sc.score)).take maxChunks).map
      (fun sc => sc.chunk)

def c6ChunkB : List Char :=
  "pricing pricing pricing pricing pricing pricing pricing pricing".data

def c6ChunkA : List Char := "whatsapp pricing".data

/-- Counterexample to claim C6: for the query "whatsapp pricing", chunk A
("whatsapp pricing", index 1) contains the full phrase while chunk B (eight
repetitions of "pricing", index 0) contains only the individual token
"pricing"; yet B scores 8 token matches against A's 2 + 5 phrase bonus = 7,
so getRelevantChunks returns B ranked above A. -/
theorem c6_counterexample :
    containsSub (toLowerList c6ChunkA) (queryLower "whatsapp pricing".data) = true ∧
    containsSub (toLowerList c6ChunkB) (queryLower "whatsapp pricing".data) = false ∧
    getRelevantChunksM [c6ChunkB, c6ChunkA] "whatsapp pricing".data 3 =
      [c6ChunkB, c6ChunkA] := by
  decide

theorem scoreAll_mem (query : List Char) (chunks : List (List Char)) :
    ∀ (i0 k : Nat) (h : k < chunks.length),
      ScoredChunk.mk chunks[k] (chunkScore query chunks[k]) (i0 + k) ∈
        scoreAll query i0 chunks := by
  induction chunks with
  | nil => intro i0 k h; simp at h
  | cons c rest ih =>
    intro i0 k h
    match k with
    | 0 => simp [scoreAll]
    | Nat.succ j =>
      have hj : j < rest.length := by
        simp only [List.length_cons] at h
        omega
      have := ih (i0 + 1) j hj
      unfold scoreAll
      right
      have harith : i0 + 1 + j = i0 + (j + 1) := by omega
      rw [harith] at this
      simpa using this

/-- Claim C6 as amended: chunk A (containing the full query phrase) is
ranked strictly above chunk B (containing only individual tokens) provided
B's token-plus-heading score does not exceed A's; the +5 phrase bonus then
forces A's total score strictly above B's, and the sort places A earlier.
Without that proviso the claim fails (see the counterexample): repeated
token matches in B can outweigh the phrase bonus. -/
theorem c6_amended (chunks : List (List Char)) (query : List Char)
    (iA iB : Nat) (hA : iA < chunks.length) (hB : iB < chunks.length)
    (hpA : containsSub (toLowerList chunks[iA]) (queryLower query) = true)
    (hpB : containsSub (toLowerList chunks[iB]) (queryLower query) = false)
    (hbase : baseScore query chunks[iB] ≤ baseScore query chunks[iA]) :
    ∃ (i j : Nat), i < j ∧
      (rankedChunks chunks query)[i]? =
        some (ScoredChunk.mk chunks[iA] (chunkScore query chunks[iA]) iA) ∧
      (rankedChunks chunks query)[j]? =
        some (ScoredChunk.mk chunks[iB] (chunkScore query chunks[iB]) iB) := by
  have hscoreA : chunkScore query chunks[iA] = baseScore query chunks[iA] + 5 := by
    unfold chunkScore baseScore phraseBonus
    rw [hpA]
    simp
    try omega
  have hscoreB : chunkScore query chunks[iB] = baseScore query chunks[iB] := by
    unfold chunkScore baseScore phraseBonus
    rw [hpB]
    simp
    try omega
  have hlt : chunkScore query chunks[iB] < chunkScore query chunks[iA] := by
    rw [hscoreA, hscoreB]
    omega
  set eA := ScoredChunk.mk chunks[iA] (chunkScore query chunks[iA]) iA with heA
  set eB := ScoredChunk.mk chunks[iB] (chunkScore query chunks[iB]) iB with heB
  have hmemA : eA ∈ rankedChunks chunks query := by
    unfold rankedChunks
    rw [(List.perm_insertionSort chunkBefore (scoredOf chunks query)).mem_iff]
    simpa using scoreAll_mem query chunks 0 iA hA
  have hmemB : eB ∈ rankedChunks chunks query := by
    unfold rankedChunks
    rw [(List.perm_insertionSort chunkBefore (scoredOf chunks query)).mem_iff]
    simpa using scoreAll_mem query chunks 0 iB hB
  have hsorted : (rankedChunks chunks query).Sorted chunkBefore :=
    List.sorted_insertionSort chunkBefore (scoredOf chunks query)
  rcases List.mem_iff_getElem.mp hmemA with ⟨i, hilt, hia⟩
  rcases List.mem_iff_getElem.mp hmemB with ⟨j, hjlt, hjb⟩
  have hij : i < j := by
    rcases Nat.lt_trichotomy i j with h | h | h
    · exact h
    · exfalso
      subst h
      rw [hia] at hjb
      have : eA.score = eB.score := by rw [hjb]
      rw [heA, heB] at this
      simp at this
      omega
    · exfalso
      have hrel : chunkBefore ((rankedChunks chunks query).get ⟨j, hjlt⟩)
          ((rankedChunks chunks query).get ⟨i, hilt⟩) :=
        hsorted.rel_get_of_lt h
      simp only [List.get_eq_getElem, hia, hjb] at hrel
      unfold chunkBefore at hrel
      rw [heA, heB] at hrel
      simp at hrel
      omega
  refine ⟨i, j, hij, ?_, ?_⟩
  · rw [List.getElem?_eq_getElem hilt, hia]
  · rw [List.getElem?_eq_getElem hjlt, hjb]

def c6ChunkAw : List Char := "whatsapp pricing info".data

def c6ChunkBw : List Char := "pricing list".data

/-- Witness for the amended C6: for query "whatsapp pricing" over the two
chunks above, the phrase-bearing chunk (index 0) is ranked strictly before
the token-only chunk (index 1). -/
theorem c6_amended_w :
    ∃ (i j : Nat), i < j ∧
      (rankedChunks [c6ChunkAw, c6ChunkBw] "whatsapp pricing".data)[i]? =
        some (ScoredChunk.mk c6ChunkAw
          (chunkScore "whatsapp pricing".data c6ChunkAw) 0) ∧
      (rankedChunks [c6ChunkAw, c6ChunkBw] "whatsapp pricing".data)[j]? =
        some (ScoredChunk.mk c6ChunkBw
          (chunkScore "whatsapp pricing".data c6ChunkBw) 1) :=
  c6_amended [c6ChunkAw, c6ChunkBw] "whatsapp pricing".data 0 1
    (by decide) (by decide) (by decide) (by decide) (by decide)

/-! ## Knowledge base chunker (src/unnamed/part_006, chunkText lines 119-160)

  JS source:
    function chunkText(text, chunkSize = 1000, overlap = 200) {
      if (!text || text.trim().length === 0) return [];
      const chunks = []; let start = 0; const textLength = text.length;
      const maxChunks =
        Math.ceil(textLength / Math.max(1, chunkSize - overlap)) + 100;
      while (start < textLength && chunks.length < maxChunks) {
        let end = Math.min(start + chunkSize, textLength);
        if (end < textLength) {
          const sentenceEnd = text.lastIndexOf(".", end);
          const paragraphEnd = text.lastIndexOf("\n\n", end);
          const bestBreak = Math.max(sentenceEnd, paragraphEnd);
          if (bestBreak > start + chunkSize * 0.5) end = bestBreak + 1;
        }
        const chunk = text.substring(start, end).trim();
        if (chunk.length > 0) chunks.push(chunk);
        if (end >= textLength) break;
        const nextStart = Math.max(start + 1, end - overlap);
        start = nextStart;
      }
      return chunks;
    }

  Modelling notes.  lastIndexOf(pat, f) returns the largest match start
  index <= f, or -1; the float comparison bestBreak > start + chunkSize*0.5
  is modelled exactly as 2*start + chunkSize < 2*bestBreak over Int (exact
  for every magnitude below 2^52); Math.ceil of the float division in
  maxChunks is modelled as Nat ceiling division (exact for the same range),
  and chunkSize - overlap <= 0 hits the same Math.max(1, _) in both.  The
  while loop is modelled with explicit fuel so that its termination is a
  provable statement: ctLoop returns the list of scanned windows
  (start, end), and the produced chunks are the trimmed nonempty windows in
  order.  The loop counter counts pushed (nonempty) chunks exactly as the
  source does. -/

def lastIdxFrom (text : List Char) (c : Char) : Nat → Int
  | 0 => if text[0]? == some c then 0 else -1
  | j + 1 => if text[j + 1]? == some c then ((j : Int) + 1) else lastIdxFrom text c j

def lastIdxPairFrom (text : List Char) : Nat → Int
  | 0 => if text[0]? == some '\n' && text[1]? == some '\n' then 0 else -1
  | j + 1 =>
    if text[j + 1]? == some '\n' && text[j + 2]? == some '\n' then ((j : Int) + 1)
    else lastIdxPairFrom text j

def bestBreak (text : List Char) (e0 : Nat) : Int :=
  max (lastIdxFrom text '.' e0) (lastIdxPairFrom text e0)

def chunkEnd (text : List Char) (size start : Nat) : Nat :=
  if min (start + size) text.length < text.length then
    if 2 * (start : Int) + (size : Int) < 2 * bestBreak text (min (start + size) text.length) then
      (bestBreak text (min (start + size) text.length) + 1).toNat
    else min (start + size) text.length
  else min (start + size) text.length

def windowChunk (text : List Char) (s e : Nat) : List Char :=
  jsTrim ((text.drop s).take (e - s))

def ctMaxChunks (text : List Char) (size overlap : Nat) : Nat :=
  (text.length + max 1 (size - overlap) - 1) / max 1 (size - overlap) + 100

def ctLoop (text : List Char) (size overlap maxC : Nat) :
    Nat → Nat → Nat → Option (List (Nat × Nat))
  | 0, _, _ => none
  | fuel + 1, start, count =>
    if start < text.length ∧ count < maxC then
      if text.length ≤ chunkEnd text size start then
        some [(start, chunkEnd text size start)]
      else
        match ctLoop text size overlap maxC fuel
            (max (start + 1) (chunkEnd text size start - overlap))
            (count + (if (windowChunk text start (chunkEnd text size start)).isEmpty
              then 0 else 1)) with
        | none => none
        | some ws => some ((start, chunkEnd text size start) :: ws)
    else some []

def chunkTextWindows (text : List Char) (size overlap : Nat) : Option (List (Nat × Nat)) :=
  if (jsTrim text).isEmpty then some []
  else ctLoop text size overlap (ctMaxChunks text size overlap) (text.length + 1) 0 0

def chunkText (text : List Char) (size overlap : Nat) : Option (List (List Char)) :=
  match chunkTextWindows text size overlap with
  | none => none
  | some ws => some ((ws.map (fun w => windowChunk text w.1 w.2)).filter (fun c => !c.isEmpty))

def emCount (text : List Char) (ws : List (Nat × Nat)) : Nat :=
  (ws.filter (fun w => !(windowChunk text w.1 w.2).isEmpty)).length

theorem lastIdxFrom_lt_len (text : List Char) (c : Char) (j : Nat) :
    lastIdxFrom text c j < (text.length : Int) := by
  induction j with
  | zero =>
    unfold lastIdxFrom
    by_cases h : text[0]? == some c
    · rw [if_pos h]
      have h0 : text[0]? = some c := beq_iff_eq.mp h
      have hlen : 0 < text.length := by
        cases text with
        | nil => simp at h0
        | cons a l => simp
      omega
    · rw [if_neg h]
      omega
  | succ j ih =>
    unfold lastIdxFrom
    by_cases h : text[j + 1]? == some c
    · rw [if_pos h]
      have h0 : text[j + 1]? = some c := beq_iff_eq.mp h
      have hlen : j + 1 < text.length := by
        by_contra hge
        rw [List.getElem?_eq_none (by omega)] at h0
        exact Option.noConfusion h0
      omega
    · rw [if_neg h]
      exact ih

theorem lastIdxPairFrom_lt_len (text : List Char) (j : Nat) :
    lastIdxPairFrom text j < (text.length : Int) := by
  induction j with
  | zero =>
    unfold lastIdxPairFrom
    by_cases h : text[0]? == some '\n' && text[1]? == some '\n'
    · rw [if_pos h]
      simp only [Bool.and_eq_true] at h
      have h0 : text[0]? = some '\n' := beq_iff_eq.mp h.1
      have hlen : 0 < text.length := by
        cases text with
        | nil => simp at h0
        | cons a l => simp
      omega
    · rw [if_neg h]
      omega
  | succ j ih =>
    unfold lastIdxPairFrom
    by_cases h : text[j + 1]? == some '\n' && text[j + 2]? == some '\n'
    · rw [if_pos h]
      simp only [Bool.and_eq_true] at h
      have h0 : text[j + 1]? = some '\n' := beq_iff_eq.mp h.1
      have hlen : j + 1 < text.length := by
        by_contra hge
        rw [List.getElem?_eq_none (by omega)] at h0
        exact Option.noConfusion h0
      omega
    · rw [if_neg h]
      exact ih

theorem chunkEnd_bounds (text : List Char) (size start : Nat)
    (hs : start < text.length) (hsize : 1 ≤ size) :
    start < chunkEnd text size start ∧ chunkEnd text size start ≤ text.length := by
  unfold chunkEnd
  have h1 : start < min (start + size) text.length := by omega
  have h2 : min (start + size) text.length ≤ text.length := by omega
  by_cases hc : min (start + size) text.length < text.length
  · rw [if_pos hc]
    by_cases hbb : 2 * (start : Int) + (size : Int) <
        2 * bestBreak text (min (start + size) text.length)
    · rw [if_pos hbb]
      have hlt : bestBreak text (min (start + size) text.length) < (text.length : Int) := by
        unfold bestBreak
        have ha := lastIdxFrom_lt_len text '.' (min (start + size) text.length)
        have hb := lastIdxPairFrom_lt_len text (min (start + size) text.length)
        omega
      constructor
      · omega
      · omega
    · rw [if_neg hbb]
      exact ⟨h1, h2⟩
  · rw [if_neg hc]
    exact ⟨h1, h2⟩

theorem jsTrim_eq_nil (l : List Char) (h : jsTrim l = []) :
    ∀ x ∈ l, isJsSpace x = true := by
  unfold jsTrim at h
  have h1 : (l.dropWhile isJsSpace).reverse.dropWhile isJsSpace = [] := by
    rwa [List.reverse_eq_nil_iff] at h
  have h2 : ∀ x ∈ (l.dropWhile isJsSpace).reverse, isJsSpace x = true :=
    List.dropWhile_eq_nil_iff.mp h1
  intro x hx
  have hx2 : x ∈ l.takeWhile isJsSpace ++ l.dropWhile isJsSpace := by
    rw [List.takeWhile_append_dropWhile]
    exact hx
  rcases List.mem_append.mp hx2 with h3 | h3
  · exact List.mem_takeWhile_imp h3
  · exact h2 x (List.mem_reverse.mpr h3)

theorem windowChunk_nonempty (text : List Char) (s e p : Nat)
    (hsp : s ≤ p) (hpe : p < e) (hel : e ≤ text.length) (hp : p < text.length)
    (hnw : ¬ isJsSpace (text.get ⟨p, hp⟩) = true) :
    ¬ (windowChunk text s e).isEmpty = true := by
  intro hemp
  have hnil : windowChunk text s e = [] := by
    cases hq : windowChunk text s e with
    | nil => rfl
    | cons a l => rw [hq] at hemp; simp at hemp
  have hall : ∀ x ∈ (text.drop s).take (e - s), isJsSpace x = true :=
    jsTrim_eq_nil _ hnil
  have hlen1 : ((text.drop s).take (e - s)).length = e - s := by
    simp only [List.length_take, List.length_drop]
    omega
  have hps : p - s < ((text.drop s).take (e - s)).length := by omega
  have hget : ((text.drop s).take (e - s)).get ⟨p - s, hps⟩ = text.get ⟨p, hp⟩ := by
    simp only [List.get_eq_getElem, List.getElem_take, List.getElem_drop]
    congr 1
    omega
  have hmem : text.get ⟨p, hp⟩ ∈ (text.drop s).take (e - s) := by
    rw [← hget]
    exact List.get_mem _ _ _
  exact hnw (hall _ hmem)

theorem ctLoop_isSome (text : List Char) (size overlap maxC : Nat) :
    ∀ fuel start count, text.length - start < fuel →
      (ctLoop text size overlap maxC fuel start count).isSome = true := by
  intro fuel
  induction fuel with
  | zero =>
    intro start count h
    omega
  | succ fuel ih =>
    intro start count h
    unfold ctLoop
    by_cases hcond : start < text.length ∧ count < maxC
    · rw [if_pos hcond]
      by_cases hend : text.length ≤ chunkEnd text size start
      · rw [if_pos hend]
        rfl
      · rw [if_neg hend]
        have hnext : text.length - max (start + 1) (chunkEnd text size start - overlap) < fuel := by
          omega
        have hrec := ih (max (start + 1) (chunkEnd text size start - overlap))
          (count + (if (windowChunk text start (chunkEnd text size start)).isEmpty
            then 0 else 1)) hnext
        cases hq : ctLoop text size overlap maxC fuel
            (max (start + 1) (chunkEnd text size start - overlap))
            (count + (if (windowChunk text start (chunkEnd text size start)).isEmpty
              then 0 else 1)) with
        | none => rw [hq] at hrec; simp at hrec
        | some ws => rfl
    · rw [if_neg hcond]
      rfl

theorem ctLoop_coverage (text : List Char) (size overlap maxC : Nat)
    (hsize : 1 ≤ size) :
    ∀ fuel start count ws,
      ctLoop text size overlap maxC fuel start count = some ws →
      count + emCount text ws < maxC →
      ∀ p (hp : p < text.length), start ≤ p →
        ¬ isJsSpace (text.get ⟨p, hp⟩) = true →
        ∃ w ∈ ws, w.1 ≤ p ∧ p < w.2 ∧
          ¬ (windowChunk text w.1 w.2).isEmpty = true := by
  intro fuel
  induction fuel with
  | zero =>
    intro start count ws hws
    unfold ctLoop at hws
    exact absurd hws (by simp)
  | succ fuel ih =>
    intro start count ws hws hcap p hp hsp hnw
    unfold ctLoop at hws
    by_cases hcond : start < text.length ∧ count < maxC
    · rw [if_pos hcond] at hws
      have hbounds := chunkEnd_bounds text size start hcond.1 hsize
      by_cases hend : text.length ≤ chunkEnd text size start
      · rw [if_pos hend] at hws
        have hws2 : ws = [(start, chunkEnd text size start)] :=
          (Option.some.injEq _ _ ▸ hws).symm
        subst hws2
        refine ⟨(start, chunkEnd text size start), by simp, hsp, by omega, ?_⟩
        exact windowChunk_nonempty text start (chunkEnd text size start) p hsp
          (by omega) hbounds.2 hp hnw
      · rw [if_neg hend] at hws
        cases hq : ctLoop text size overlap maxC fuel
            (max (start + 1) (chunkEnd text size start - overlap))
            (count + (if (windowChunk text start (chunkEnd text size start)).isEmpty
              then 0 else 1)) with
        | none =>
          rw [hq] at hws
          exact absurd hws (by simp)
        | some ws2 =>
          rw [hq] at hws
          have hws2 : ws = (start, chunkEnd text size start) :: ws2 :=
            (Option.some.injEq _ _ ▸ hws).symm
          subst hws2
          by_cases hpe : p < chunkEnd text size start
          · refine ⟨(start, chunkEnd text size start), by simp, hsp, hpe, ?_⟩
            exact windowChunk_nonempty text start (chunkEnd text size start) p hsp
              hpe hbounds.2 hp hnw
          · have hcap2 : count + (if (windowChunk text start
                (chunkEnd text size start)).isEmpty then 0 else 1) +
                emCount text ws2 < maxC := by
              have hem : emCount text ((start, chunkEnd text size start) :: ws2) =
                  (if (windowChunk text start (chunkEnd text size start)).isEmpty
                    then 0 else 1) + emCount text ws2 := by
                unfold emCount
                rw [List.filter_cons]
                cases hq2 : (windowChunk text start (chunkEnd text size start)).isEmpty with
                | true => simp [hq2]
                | false =>
                  simp [hq2]
                  omega
              rw [hem] at hcap
              omega
            have hnext_le : max (start + 1) (chunkEnd text size start - overlap) ≤ p := by
              omega
            obtain ⟨w, hwmem, hw1, hw2, hw3⟩ := ih
              (max (start + 1) (chunkEnd text size start - overlap))
              (count + (if (windowChunk text start (chunkEnd text size start)).isEmpty
                then 0 else 1)) ws2 hq hcap2 p hp hnext_le hnw
            exact ⟨w, by simp [hwmem], hw1, hw2, hw3⟩
    · rw [if_neg hcond] at hws
      have hws2 : ws = [] := (Option.some.injEq _ _ ▸ hws).symm
      subst hws2
      exfalso
      unfold emCount at hcap
      simp at hcap
      omega

/-- Counterexample to claim C5 as stated: for the non-empty input "a b"
with size 1 >= 1 and overlap 0 < 1, the scanned windows are
(0,1), (1,2), (2,3); the middle window trims to the empty chunk and is not
emitted, so position 1 (the space) falls inside no emitted window: the
produced chunks do not cover the whole input. -/
theorem c5_counterexample :
    chunkTextWindows "a b".data 1 0 = some [(0, 1), (1, 2), (2, 3)] ∧
    chunkText "a b".data 1 0 = some ["a".data, "b".data] ∧
    ¬ ∃ w ∈ [((0 : Nat), (1 : Nat)), (1, 2), (2, 3)], w.1 ≤ 1 ∧ 1 < w.2 ∧
        ¬ (windowChunk "a b".data w.1 w.2).isEmpty = true := by
  decide

/-- Claim C5 as amended: for every input and every size >= 1, overlap <
size, chunkText terminates (the fueled loop completes within length + 1
iterations, because the next window start strictly advances), and, provided
the safety cap maxChunks is not reached, every position of the input
holding a non-whitespace character falls inside at least one emitted
window; positions inside all-whitespace stretches may fall only inside
windows whose chunk trims to empty, which are scanned but not emitted (see
the counterexample). -/
theorem c5_chunkText_terminates_covers (text : List Char) (size overlap : Nat)
    (hsize : 1 ≤ size) (_hov : overlap < size) :
    ∃ ws, chunkTextWindows text size overlap = some ws ∧
      (emCount text ws < ctMaxChunks text size overlap →
        ∀ p (hp : p < text.length), ¬ isJsSpace (text.get ⟨p, hp⟩) = true →
          ∃ w ∈ ws, w.1 ≤ p ∧ p < w.2 ∧
            ¬ (windowChunk text w.1 w.2).isEmpty = true) := by
  unfold chunkTextWindows
  by_cases ht : (jsTrim text).isEmpty
  · rw [if_pos ht]
    refine ⟨[], rfl, ?_⟩
    intro _ p hp hnw
    exfalso
    have htn : jsTrim text = [] := by
      cases hq : jsTrim text with
      | nil => rfl
      | cons a l => rw [hq] at ht; simp at ht
    exact hnw (jsTrim_eq_nil text htn _ (List.get_mem _ _ _))
  · rw [if_neg ht]
    have hsome := ctLoop_isSome text size overlap (ctMaxChunks text size overlap)
      (text.length + 1) 0 0 (by omega)
    obtain ⟨ws, hws⟩ := Option.isSome_iff_exists.mp hsome
    refine ⟨ws, hws, ?_⟩
    intro hcap p hp hnw
    exact ctLoop_coverage text size overlap (ctMaxChunks text size overlap) hsize
      (text.length + 1) 0 0 ws hws (by simpa using hcap) p hp (Nat.zero_le p) hnw

/-- Witness for the amended C5 at the input "ab. cd" with size 4,
overlap 1. -/
theorem c5_chunkText_terminates_covers_w :
    ∃ ws, chunkTextWindows "ab. cd".data 4 1 = some ws ∧
      (emCount "ab. cd".data ws < ctMaxChunks "ab. cd".data 4 1 →
        ∀ p (hp : p < "ab. cd".data.length),
          ¬ isJsSpace ("ab. cd".data.get ⟨p, hp⟩) = true →
          ∃ w ∈ ws, w.1 ≤ p ∧ p < w.2 ∧
            ¬ (windowChunk "ab. cd".data w.1 w.2).isEmpty = true) :=
  c5_chunkText_terminates_covers "ab. cd".data 4 1 (by decide) (by decide)

/-! ## Outbound streaming machine
    (src/server.js: streamTTSAudio lines 265-352, sendFallbackSilence lines
    189-256, the onToken callback in processUserAudio lines 422-527,
    handleClearEvent lines 865-869; src/unnamed/part_005: the SSE read loop
    of generateWithGeminiStreaming lines 412-504)

  JavaScript runs these as cooperating async functions on one event loop:
  control changes hands only at await points, so the concurrent behaviour
  is a deterministic function of the order in which external events
  (network chunks, TTS responses, pacing timers, ws messages) arrive.  The
  machine below has one state per session and one step per such event:

  * Lab.flush f n final: the SSE read loop delivers a delta that makes
    onToken flush a fragment f whose synthesized audio will chunk into n
    frames; final marks the isComplete flush (sendMark = true, others
    false).  onToken runs synchronously up to `await pendingTTS`: it reads
    the pendingTTS variable once; when null (or already resolved) it calls
    streamTTSAudio(f) at once, which runs to its first await (inside
    ttsService.synthesize), and stores the new promise; otherwise it
    registers as a waiter on that promise (FIFO).  The read loop never
    awaits onToken (lines 462 and 503 of part_005), so flushes can arrive
    while earlier fragments stream.
  * Lab.direct f n mk: a direct streamTTSAudio call (the greeting), which
    does not touch pendingTTS; mk is its sendMark argument.
  * Lab.fallback f n: sendFallbackSilence; it allocates silence and emits
    its first chunk synchronously, paces the rest on timers, checks only
    the socket (never pendingClear) and always ends with the
    fallback_silence_done mark.
  * Lab.synthDone i: the TTS response for instance i arrives; the chunk
    loop starts, and its iteration 0 checks pendingClear before emitting
    chunk 0 (consuming the flag and breaking when set).
  * Lab.timerFire i: the 10 ms pacing timer of instance i fires; the loop
    re-checks its condition: when chunks remain it checks pendingClear
    (consuming it and breaking when set) and otherwise emits the next
    chunk; when none remain it exits and runs the mark guard
    `sendMark && ws.readyState === 1 && !session.pendingClear` with
    pendingClear NOT consumed.  When the instance finishes, the promise
    resolves and its waiters resume in FIFO registration order; each
    resumed onToken starts its own streamTTSAudio synchronously (to the
    synthesize await) and overwrites pendingTTS - without awaiting the
    promises its fellow waiters just stored.
  * Lab.clearEvt: the ws message handler runs handleClearEvent, setting
    pendingClear (the audio-buffer clearing is outside this machine).

  Frames are emitted through one helper that stamps the current
  sequenceNumber and increments it, exactly as the source does with no
  await between `ws.send` and `session.sequenceNumber++`.  The socket is
  modelled as always open; a closed socket only suppresses emission. -/

inductive OutMsg
  | media (seq frag idx : Nat)
  | mark (nm : String)
deriving DecidableEq

inductive Phase
  | synth
  | streaming
  | done
deriving DecidableEq

structure StreamInst where
  frag : Nat
  sendMark : Bool
  isFallback : Bool
  total : Nat
  sent : Nat
  phase : Phase
deriving DecidableEq

structure Waiter where
  target : Nat
  frag : Nat
  total : Nat
  final : Bool
deriving DecidableEq

structure SessionSt where
  seqN : Nat
  pendingClear : Bool
  pendVar : Option Nat
  insts : List StreamInst
  waiters : List Waiter
  out : List OutMsg
deriving DecidableEq

inductive Lab
  | flush (frag total : Nat) (final : Bool)
  | direct (frag total : Nat) (mk : Bool)
  | fallback (frag total : Nat)
  | synthDone (i : Nat)
  | timerFire (i : Nat)
  | clearEvt
deriving DecidableEq

def emitMedia (st : SessionSt) (frag idx : Nat) : SessionSt :=
  { st with out := st.out ++ [OutMsg.media st.seqN frag idx], seqN := st.seqN + 1 }

def emitMark (st : SessionSt) (nm : String) : SessionSt :=
  { st with out := st.out ++ [OutMsg.mark nm] }

def setInst (st : SessionSt) (i : Nat) (inst : StreamInst) : SessionSt :=
  { st with insts := st.insts.set i inst }

def startTTSInst (st : SessionSt) (frag total : Nat) (mk : Bool) : SessionSt × Nat :=
  ({ st with insts :=
      st.insts ++ [StreamInst.mk frag mk false total 0 Phase.synth] }, st.insts.length)

def resumeWaiters (st : SessionSt) (i : Nat) : SessionSt :=
  let mine := st.waiters.filter (fun w => w.target == i)
  let rest := st.waiters.filter (fun w => !(w.target == i))
  mine.foldl (fun acc w =>
    let p := startTTSInst acc w.frag w.total w.final
    { p.1 with pendVar := some p.2 }) { st with waiters := rest }

def finishTTS (st : SessionSt) (i : Nat) (inst : StreamInst) : SessionSt :=
  let st1 := if inst.sendMark ∧ st.pendingClear = false then
    emitMark st "assistant_reply_done" else st
  resumeWaiters (setInst st1 i { inst with phase := Phase.done }) i

def stepFlush (st : SessionSt) (f n : Nat) (final : Bool) : SessionSt :=
  match st.pendVar with
  | none =>
    let p := startTTSInst st f n final
    { p.1 with pendVar := some p.2 }
  | some q =>
    match st.insts[q]? with
    | some inst =>
      if inst.phase = Phase.done then
        let p := startTTSInst st f n final
        { p.1 with pendVar := some p.2 }
      else { st with waiters := st.waiters ++ [Waiter.mk q f n final] }
    | none => st

def stepFallback (st : SessionSt) (f n : Nat) : SessionSt :=
  if n = 0 then
    emitMark { st with insts :=
      st.insts ++ [StreamInst.mk f true true n 0 Phase.done] } "fallback_silence_done"
  else
    emitMedia { st with insts :=
      st.insts ++ [StreamInst.mk f true true n 1 Phase.streaming] } f 0

def stepSynthDone (st : SessionSt) (i : Nat) : SessionSt :=
  match st.insts[i]? with
  | some inst =>
    if inst.isFallback ∨ ¬ inst.phase = Phase.synth then st
    else if inst.total = 0 then finishTTS st i inst
    else if st.pendingClear then
      finishTTS { st with pendingClear := false } i inst
    else
      emitMedia (setInst st i { inst with sent := 1, phase := Phase.streaming })
        inst.frag 0
  | none => st

def stepTimer (st : SessionSt) (i : Nat) : SessionSt :=
  match st.insts[i]? with
  | some inst =>
    if ¬ inst.phase = Phase.streaming then st
    else if inst.isFallback then
      if inst.sent < inst.total then
        emitMedia (setInst st i { inst with sent := inst.sent + 1 }) inst.frag inst.sent
      else
        emitMark (setInst st i { inst with phase := Phase.done })
          "fallback_silence_done"
    else
      if inst.total ≤ inst.sent then finishTTS st i inst
      else if st.pendingClear then
        finishTTS { st with pendingClear := false } i inst
      else
        emitMedia (setInst st i { inst with sent := inst.sent + 1 }) inst.frag inst.sent
  | none => st

def step (st : SessionSt) : Lab → SessionSt
  | Lab.clearEvt => { st with pendingClear := true }
  | Lab.flush f n final => stepFlush st f n final
  | Lab.direct f n mk => (startTTSInst st f n mk).1
  | Lab.fallback f n => stepFallback st f n
  | Lab.synthDone i => stepSynthDone st i
  | Lab.timerFire i => stepTimer st i

def initSt : SessionSt := SessionSt.mk 0 false none [] [] []

def run (labs : List Lab) : SessionSt := labs.foldl step initSt

def mediaSeqs (out : List OutMsg) : List Nat :=
  out.filterMap (fun m =>
    match m with
    | OutMsg.media s _ _ => some s
    | OutMsg.mark _ => none)

/-- Counterexample behaviour behind claim C1: the final fragment of a turn
(2 chunks, sendMark = true) starts streaming, chunk 0 goes out, a clear
(barge-in) event arrives during the pacing delay, and the next loop
iteration consumes pendingClear and breaks - no further media frames are
emitted for the fragment.  But the mark guard that runs immediately after
the break reads the already-reset flag, so the assistant_reply_done mark IS
emitted, where claim C1 and spec 4.8 step 8 say it must not be. -/
theorem c1_mark_emitted_after_clear :
    (run [Lab.flush 0 2 true, Lab.synthDone 0, Lab.clearEvt, Lab.timerFire 0]).out =
      [OutMsg.media 0 0 0, OutMsg.mark "assistant_reply_done"] := by
  rfl

/-- Counterexample behaviour behind claim C2: fragment 10 (2 chunks) is
flushed and streams; fragments 11 then 12 are flushed while it streams, so
both onToken invocations await the same stale pendingTTS promise (fragment
10).  When fragment 10 finishes both resume in FIFO order; each starts its
own streamTTSAudio immediately, so fragments 11 and 12 stream concurrently.
Fragment 12's synthesis returns first and its media frame reaches the wire
before fragment 11's, although 11 was enqueued first - violating the
claimed FIFO serialization (the in-code comment "to maintain order"
notwithstanding). -/
theorem c2_out_of_order_streaming :
    (run [Lab.flush 10 2 false, Lab.synthDone 0, Lab.flush 11 1 false,
        Lab.flush 12 1 true, Lab.timerFire 0, Lab.timerFire 0,
        Lab.synthDone 2, Lab.synthDone 1]).out =
      [OutMsg.media 0 10 0, OutMsg.media 1 10 1,
       OutMsg.media 2 12 0, OutMsg.media 3 11 0] := by
  rfl

theorem mediaSeqs_append_mark (out : List OutMsg) (nm : String) :
    mediaSeqs (out ++ [OutMsg.mark nm]) = mediaSeqs out := by
  unfold mediaSeqs
  rw [List.filterMap_append]
  simp

theorem mediaSeqs_append_media (out : List OutMsg) (s f i : Nat) :
    mediaSeqs (out ++ [OutMsg.media s f i]) = mediaSeqs out ++ [s] := by
  unfold mediaSeqs
  rw [List.filterMap_append]
  simp

def seqInv (st : SessionSt) : Prop := mediaSeqs st.out = List.range st.seqN

theorem emitMedia_inv (st : SessionSt) (f i : Nat) (h : seqInv st) :
    seqInv (emitMedia st f i) := by
  unfold seqInv at h ⊢
  show mediaSeqs (st.out ++ [OutMsg.media st.seqN f i]) = List.range (st.seqN + 1)
  rw [mediaSeqs_append_media, h, List.range_succ]

theorem emitMark_inv (st : SessionSt) (nm : String) (h : seqInv st) :
    seqInv (emitMark st nm) := by
  unfold seqInv at h ⊢
  show mediaSeqs (st.out ++ [OutMsg.mark nm]) = List.range st.seqN
  rw [mediaSeqs_append_mark, h]

theorem resumeWaiters_out (st : SessionSt) (i : Nat) :
    (resumeWaiters st i).out = st.out ∧ (resumeWaiters st i).seqN = st.seqN := by
  unfold resumeWaiters
  have hgen : ∀ (ms : List Waiter) (acc : SessionSt),
      ((ms.foldl (fun acc w =>
        let p := startTTSInst acc w.frag w.total w.final
        { p.1 with pendVar := some p.2 }) acc).out = acc.out ∧
       (ms.foldl (fun acc w =>
        let p := startTTSInst acc w.frag w.total w.final
        { p.1 with pendVar := some p.2 }) acc).seqN = acc.seqN) := by
    intro ms
    induction ms with
    | nil => intro acc; exact ⟨rfl, rfl⟩
    | cons w rest ih =>
      intro acc
      simp only [List.foldl_cons]
      exact ih _
  exact hgen _ _

theorem resumeWaiters_inv (st : SessionSt) (i : Nat) (h : seqInv st) :
    seqInv (resumeWaiters st i) := by
  unfold seqInv at h ⊢
  rw [(resumeWaiters_out st i).1, (resumeWaiters_out st i).2]
  exact h

theorem finishTTS_inv (st : SessionSt) (i : Nat) (inst : StreamInst)
    (h : seqInv st) : seqInv (finishTTS st i inst) := by
  unfold finishTTS
  apply resumeWaiters_inv
  by_cases hc : inst.sendMark ∧ st.pendingClear = false
  · rw [if_pos hc]
    exact emitMark_inv st _ h
  · rw [if_neg hc]
    exact h

theorem stepFlush_inv (st : SessionSt) (f n : Nat) (final : Bool)
    (h : seqInv st) : seqInv (stepFlush st f n final) := by
  unfold stepFlush
  split
  · exact h
  · split
    · split
      · exact h
      · exact h
    · exact h

theorem stepFallback_inv (st : SessionSt) (f n : Nat) (h : seqInv st) :
    seqInv (stepFallback st f n) := by
  unfold stepFallback
  by_cases hn : n = 0
  · rw [if_pos hn]
    exact emitMark_inv _ _ h
  · rw [if_neg hn]
    exact emitMedia_inv _ _ _ h

theorem stepSynthDone_inv (st : SessionSt) (i : Nat) (h : seqInv st) :
    seqInv (stepSynthDone st i) := by
  unfold stepSynthDone
  split
  · split
    · exact h
    · split
      · exact finishTTS_inv _ _ _ h
      · split
        · exact finishTTS_inv _ _ _ h
        · exact emitMedia_inv _ _ _ h
  · exact h

theorem stepTimer_inv (st : SessionSt) (i : Nat) (h : seqInv st) :
    seqInv (stepTimer st i) := by
  unfold stepTimer
  split
  · split
    · exact h
    · split
      · split
        · exact emitMedia_inv _ _ _ h
        · exact emitMark_inv _ _ h
      · split
        · exact finishTTS_inv _ _ _ h
        · split
          · exact finishTTS_inv _ _ _ h
          · exact emitMedia_inv _ _ _ h
  · exact h

theorem step_inv (st : SessionSt) (l : Lab) (h : seqInv st) : seqInv (step st l) := by
  cases l with
  | clearEvt => exact h
  | flush f n final => exact stepFlush_inv st f n final h
  | direct f n mk => exact h
  | fallback f n => exact stepFallback_inv st f n h
  | synthDone i => exact stepSynthDone_inv st i h
  | timerFire i => exact stepTimer_inv st i h

theorem run_inv (labs : List Lab) : seqInv (run labs) := by
  unfold run
  have hgen : ∀ (ls : List Lab) (st : SessionSt), seqInv st → seqInv (ls.foldl step st) := by
    intro ls
    induction ls with
    | nil => intro st h; exact h
    | cons l rest ih =>
      intro st h
      exact ih _ (step_inv st l h)
  exact hgen labs initSt (by unfold seqInv initSt mediaSeqs; rfl)

/-- Claim C3: over every schedule of event-loop events (greeting, turn
fragments, fallback silence, barge-ins, timers, in any interleaving), the
sequence numbers carried by the outbound media frames of a session are
exactly 0, 1, 2, ... in emission order: they start at 0, strictly increase,
and no value is repeated or skipped.  This holds because every send stamps
the current counter and increments it with no await in between. -/
theorem c3_sequence_numbers (labs : List Lab) :
    mediaSeqs (run labs).out = List.range (mediaSeqs (run labs).out).length := by
  have h := run_inv labs
  unfold seqInv at h
  rw [h, List.length_range]

end KKBK
